import Mathlib

/-!
Verification development for the pyvdrm rule engine core.

This file is a shallow embedding, in Lean 4, of the parts of
pyvdrm/vcf.py, pyvdrm/hcvr.py and pyvdrm/hcvr2.py that the verified
properties talk about: the mutation algebra (Mutation, MutationSet,
VariantCalls construction, canonical text form and re-parsing) and the
evaluator value algebra (Score arithmetic, flag merging, AND folding,
score lists and aggregation, mutation-atom evaluation).

Modelling conventions:
* Python exceptions are modelled with Option / Except: a `none` or
  `.error` result is a raised exception.
* Python dicts (insertion ordered) are association lists.
* In-place mutation of an object is modelled by explicit state passing:
  an operation that mutates its receiver returns the post-state of the
  receiver alongside its result.
* Python frozensets of Mutation objects hash and compare on the pair
  (pos, variant) (vcf.py lines 144-145), so residue sets are modelled
  as finite sets of (pos, variant) pairs.
-/

namespace Pyvdrm

/-- The fixed 20-letter amino-acid alphabet, vcf.py line 8:
AMINO_ALPHABET = 'ACDEFGHIKLMNPQRSTVWY'. -/
def AMINO_ALPHABET : List Char :=
  ['A', 'C', 'D', 'E', 'F', 'G', 'H', 'I', 'K', 'L',
   'M', 'N', 'P', 'Q', 'R', 'S', 'T', 'V', 'W', 'Y']

/-- Membership in the regex character class A-Z (codepoints 65-90). -/
def isUpperB (c : Char) : Bool := decide (65 ≤ c.toNat ∧ c.toNat ≤ 90)

/-- Membership in the regex character class 0-9 (codepoints 48-57). -/
def isDigitB (c : Char) : Bool := decide (48 ≤ c.toNat ∧ c.toNat ≤ 57)

/-- Membership in the regex character class [idA-Z] used for variant
letters in vcf.py lines 87 and 160. -/
def isVariantB (c : Char) : Bool := c == 'i' || c == 'd' || isUpperB c

/-- Numeric value of a decimal digit character. -/
def digitVal (c : Char) : Nat := c.toNat - 48

/-- The decimal digit character for a value below ten (the digits
produced by Python str() on a nonnegative integer). -/
def digitChar (m : Nat) : Char :=
  match m with
  | 0 => '0'
  | 1 => '1'
  | 2 => '2'
  | 3 => '3'
  | 4 => '4'
  | 5 => '5'
  | 6 => '6'
  | 7 => '7'
  | 8 => '8'
  | 9 => '9'
  | _ => '*'

/-- Fuel-driven digit expansion; the fuel only bounds the recursion
depth and any fuel above the value itself is enough. -/
def natDecimalAux : Nat → Nat → List Char
  | 0, _ => []
  | fuel + 1, n =>
      if n < 10 then [digitChar n]
      else natDecimalAux fuel (n / 10) ++ [digitChar (n % 10)]

/-- Decimal rendering of a natural number, as Python str(pos) renders
an int (most significant digit first, no sign, no leading zeros). -/
def natDecimal (n : Nat) : List Char := natDecimalAux (n + 1) n

/-- Decimal reading of a digit string, as Python int() reads the digit
group matched by the regex. -/
def parseNat (l : List Char) : Nat := l.foldl (fun a c => a * 10 + digitVal c) 0

/-- One amino-acid call: vcf.py class Mutation (a namedtuple with
fields pos, variant, wildtype). -/
structure Mutation where
  pos : Nat
  variant : Char
  wildtype : Option Char
deriving DecidableEq

/-- Mutation.__eq__, vcf.py lines 126-139.  Raising ValueError on a
wildtype mismatch is modelled as `none`; a returned boolean is `some`.
Position mismatch returns False before any wildtype check; with equal
positions, conflicting non-None wildtypes raise; otherwise the result
compares (pos, variant) pairs. -/
def mutationEq (m o : Mutation) : Option Bool :=
  if m.pos ≠ o.pos then some false
  else
    match m.wildtype, o.wildtype with
    | some w1, some w2 =>
        if w1 ≠ w2 then none else some (decide (m.variant = o.variant))
    | _, _ => some (decide (m.variant = o.variant))

/-- vcf.py class MutationSet (namedtuple with fields pos, mutations,
wildtype).  Every constructor path of MutationSet.__new__ gives all
member Mutations the same position and the same wildtype as the set
itself, and Python frozensets of Mutations deduplicate on
(pos, variant); so the member set is represented by its variant
letters alone. -/
structure MutationSet where
  pos : Nat
  wildtype : Option Char
  variants : Finset Char
deriving DecidableEq

/-- MutationSet.__eq__, vcf.py lines 239-249: position mismatch is
False; both wildtypes specified and different raises ValueError
(modelled as `none`); otherwise the member frozensets are compared,
which for sets sharing one position and consistent wildtypes is
equality of the variant-letter sets. -/
def msEq (s1 s2 : MutationSet) : Option Bool :=
  if s1.pos ≠ s2.pos then some false
  else
    match s1.wildtype, s2.wildtype with
    | some w1, some w2 =>
        if w1 ≠ w2 then none else some (decide (s1.variants = s2.variants))
    | _, _ => some (decide (s1.variants = s2.variants))

/-- The character list contributed by an optional wildtype letter. -/
def wtList : Option Char → List Char
  | some c => [c]
  | none => []

/-- The sorted list of the elements of a multiset of characters (the
result of Python sorted() on an iterable of single characters, which
orders by code point).  Well defined because two sorted permutations
of each other are equal. -/
def sortMultiset (s : Multiset Char) : List Char :=
  Quot.liftOn s (fun l => l.insertionSort (· ≤ ·))
    (fun l1 l2 h => List.eq_of_perm_of_sorted
      ((List.perm_insertionSort _ l1).trans
        ((Quotient.exact (Quotient.sound h)).trans
          (List.perm_insertionSort _ l2).symm))
      (List.sorted_insertionSort _ l1) (List.sorted_insertionSort _ l2))

/-- The sorted variant letters of a set, ''.join(sorted(...)) in
MutationSet.__str__ (vcf.py lines 263-264). -/
def msSorted (vs : Finset Char) : List Char := sortMultiset vs.val

/-- MutationSet.__str__, vcf.py lines 260-271, producing the character
list of the canonical text: optional wildtype, decimal position, then
either the sorted variant letters (when at most ten) or a bang and the
alphabet letters not present (when more than ten). -/
def msStrL (s : MutationSet) : List Char :=
  let sorted := msSorted s.variants
  let body :=
    if sorted.length > 10 then
      '!' :: AMINO_ALPHABET.filter (fun c => !(sorted.contains c))
    else sorted
  wtList s.wildtype ++ natDecimal s.pos ++ body

/-- String form of MutationSet.__str__. -/
def msStr (s : MutationSet) : String := String.mk (msStrL s)

/-- The group ([A-Z]?) of the MutationSet text regex: an uppercase
first character must be consumed as the wildtype (the following group
requires a digit), any other input leaves the wildtype empty. -/
def splitWt : List Char → Option Char × List Char
  | [] => (none, [])
  | c :: rest => if isUpperB c then (some c, rest) else (none, c :: rest)

/-- The group (!)? of the MutationSet text regex. -/
def splitBang : List Char → Bool × List Char
  | [] => (false, [])
  | c :: t => if c = '!' then (true, t) else (false, c :: t)

/-- The tail of the MutationSet text constructor: the variant group
([idA-Z]+)$ must be non-empty and consume the whole remainder, and a
bang-prefixed variant list is complement-expanded against
AMINO_ALPHABET (vcf.py lines 170-179). -/
def parseTail (neg : Bool) (vs : List Char) (p : Nat) (wt : Option Char) :
    Option MutationSet :=
  if vs.isEmpty then none
  else if vs.all isVariantB then
    some { pos := p
           wildtype := wt
           variants :=
             (if neg then AMINO_ALPHABET.filter (fun c => !(vs.contains c))
              else vs).toFinset }
  else none

/-- The text constructor path of MutationSet.__new__, vcf.py lines
158-179: the regex ([A-Z]?)(\d+)(!)?([idA-Z]+)$ against the input, a
ValueError (`none`) when it fails, then complement expansion of a
bang-prefixed variant list against AMINO_ALPHABET. -/
def parseMSL (cs : List Char) : Option MutationSet :=
  let s1 := splitWt cs
  let ds := s1.2.takeWhile isDigitB
  let rest := s1.2.dropWhile isDigitB
  if ds.isEmpty then none
  else
    let s2 := splitBang rest
    parseTail s2.1 s2.2 (parseNat ds) s1.1

/-- MutationSet construction from text, on Strings. -/
def parseMutationSetText (t : String) : Option MutationSet := parseMSL t.toList

/-- The reference/sample constructor path of VariantCalls.__new__,
vcf.py lines 38-42: one MutationSet per 1-based position whose sample
call is non-empty (the comprehension guard is the truthiness of alt),
with the reference residue at that position as wildtype. -/
def mkSets : Nat → List Char → List (List Char) → List MutationSet
  | i, r :: rs, a :: as =>
      (if a.isEmpty then [] else [⟨i, some r, a.toFinset⟩]) ++ mkSets (i + 1) rs as
  | _, _, _ => []

/-- VariantCalls.__new__ on a reference/sample pair, vcf.py lines
31-53: a length mismatch raises ValueError, then the mutation sets are
built (mkSets) and a duplicate-position check runs over them. -/
def variantCallsFromSample (reference : List Char) (sample : List (List Char)) :
    Except Unit (List MutationSet) :=
  if reference.length ≠ sample.length then .error ()
  else
    let sets := mkSets 1 reference sample
    if (sets.map (·.pos)).Nodup then .ok sets else .error ()

/-- Values stored in Score.flags dictionaries.  ScoreExpr only ever
stores empty Python lists as flag values (hcvr2.py line 146), and
update_flags appends a whole value list as a single element (hcvr2.py
line 17), so every reachable flag value is a finitely nested list. -/
inductive FVal where
  | node : List FVal → FVal

mutual

/-- Size of a flag value, used to separate structurally distinct
values. -/
def fsize : FVal → Nat
  | .node xs => 1 + fsizeList xs

/-- Size of a list of flag values. -/
def fsizeList : List FVal → Nat
  | [] => 0
  | x :: xs => fsize x + fsizeList xs

end

/-- A flags dictionary: Python dicts are insertion ordered, modelled
as association lists from label to value. -/
abbrev Flags := List (String × FVal)

/-- Whether a key is present in a flags dictionary. -/
def hasKey (k : String) : Flags → Bool
  | [] => false
  | (k', _) :: rest => k' == k || hasKey k rest

/-- fst[k].append(snd[k]): the whole value v is appended to the value
list already stored at k, as one element. -/
def appendVal : FVal → FVal → FVal
  | .node xs, v => .node (xs ++ [v])

/-- Replace the value stored at key k by appending v to it as a single
element, keeping the key at its insertion position. -/
def bumpKey (k : String) (v : FVal) : Flags → Flags
  | [] => []
  | (k', w) :: rest =>
      if k' == k then (k', appendVal w v) :: rest else (k', w) :: bumpKey k v rest

/-- One iteration of the loop in update_flags, hcvr2.py lines 15-19:
for a key already in fst the value is appended as one element,
otherwise the key/value pair is inserted. -/
def updStep (acc : Flags) (k : String) (v : FVal) : Flags :=
  if hasKey k acc then bumpKey k v acc else acc ++ [(k, v)]

/-- update_flags, hcvr2.py lines 14-20.  The Python function mutates
fst in place and returns it; here the returned dictionary is the
post-state of fst. -/
def update_flags (fst snd : Flags) : Flags :=
  snd.foldl (fun acc kv => updStep acc kv.1 kv.2) fst

/-- Replace the value stored at key k, keeping its insertion
position. -/
def setKey (k : String) (v : FVal) : Flags → Flags
  | [] => []
  | (k', w) :: rest =>
      if k' == k then (k', v) :: rest else (k', w) :: setKey k v rest

/-- One key of a Python dict.update: an existing key is overwritten
in place, a new key is appended. -/
def dictStep (acc : Flags) (k : String) (v : FVal) : Flags :=
  if hasKey k acc then setKey k v acc else acc ++ [(k, v)]

/-- Python dict.update as used by ScoreList.__call__ (hcvr2.py line
193): existing keys are overwritten, new keys appended. -/
def dictUpdate (fst snd : Flags) : Flags :=
  snd.foldl (fun acc kv => dictStep acc kv.1 kv.2) fst

/-- The value slot of a Score: Python stores either a bool or an int
there (hcvr2.py Score docstring and all construction sites). -/
inductive SVal where
  | b : Bool → SVal
  | i : Int → SVal
deriving DecidableEq

/-- Numeric value of a Score value slot: Python bool is an int
subclass with False = 0 and True = 1. -/
def SVal.toInt : SVal → Int
  | .b x => if x then 1 else 0
  | .i n => n

/-- Python truthiness of a bool-or-int value. -/
def truthyB (v : SVal) : Bool := !(v.toInt == 0)

/-- Python + on two bool-or-int values: both coerce to int. -/
def svalAdd (a c : SVal) : SVal := .i (a.toInt + c.toInt)

/-- Python - on two bool-or-int values. -/
def svalSub (a c : SVal) : SVal := .i (a.toInt - c.toInt)

/-- A residue: the (pos, variant) key under which Python hashes and
compares a Mutation inside result sets. -/
abbrev Mut := Nat × Char

/-- hcvr2.py class Score: a value, the supporting residues, and the
flags dictionary. -/
structure Score where
  score : SVal
  residues : Finset Mut
  flags : Flags

/-- Score.__add__, hcvr2.py lines 42-46.  update_flags(self.flags,
other.flags) mutates self.flags in place and its result object is
stored in the fresh Score, so the returned triple is (result,
post-state of self, post-state of other): self's flags become the
merged dictionary (aliased by the result), other is untouched. -/
def scoreAdd (a c : Score) : Score × Score × Score :=
  let fl := update_flags a.flags c.flags
  (⟨svalAdd a.score c.score, a.residues ∪ c.residues, fl⟩,
   ⟨a.score, a.residues, fl⟩,
   c)

/-- Score.__sub__, hcvr2.py lines 48-52, with the same in-place flag
merge as addition. -/
def scoreSub (a c : Score) : Score × Score × Score :=
  let fl := update_flags a.flags c.flags
  (⟨svalSub a.score c.score, a.residues ∪ c.residues, fl⟩,
   ⟨a.score, a.residues, fl⟩,
   c)

/-- Score.__eq__, hcvr2.py lines 57-58: only the score slots are
compared, with Python numeric equality (True == 1, False == 0). -/
def scoreEq (a c : Score) : Bool := a.score.toInt == c.score.toInt

/-- Score.__lt__, hcvr2.py lines 60-64: only the score slots are
compared. -/
def scoreLt (a c : Score) : Bool := a.score.toInt < c.score.toInt

/-- EqualityExpr.__call__, hcvr.py lines 60-68 and hcvr2.py lines
127-135: the stored operation keyword is compared against the strings
ATLEAST, EXACTLY and NOMORETHAN; any other keyword falls through to
raise NotImplementedError (modelled as `none`). -/
def equalityExprCall (operation : String) (limit : Int) (x : Int) : Option Bool :=
  if operation = "ATLEAST" then some (decide (x ≥ limit))
  else if operation = "EXACTLY" then some (decide (x = limit))
  else if operation = "NOMORETHAN" then some (decide (x ≤ limit))
  else none

/-- Whether two optional wildtypes are both present and different -
the condition under which Mutation.__eq__ (vcf.py lines 130-136)
raises instead of answering. -/
def wtConflictB : Option Char → Option Char → Bool
  | some w1, some w2 => w1 != w2
  | _, _ => false

/-- Intersection of the member frozensets of two MutationSets, as
computed by `self.mutations.mutations & mutation_set.mutations` in
AsiMutations.__call__ (hcvr2.py line 244).  Elements hash on
(pos, variant), so sets at different positions intersect emptily with
no equality call; at equal positions each shared variant letter
triggers Mutation.__eq__, which raises ValueError when the two sides
carry different non-None wildtypes (vcf.py lines 130-136).  A raise is
modelled as `.error`: it happens exactly when a shared variant letter
exists and the wildtypes conflict. -/
def msIntersect (a c : MutationSet) : Except Unit (Finset Char) :=
  if a.pos = c.pos then
    if a.variants ∩ c.variants ≠ ∅ ∧ wtConflictB a.wildtype c.wildtype = true
    then .error ()
    else .ok (a.variants ∩ c.variants)
  else .ok ∅

/-- Evaluation errors: MissingPositionError carries the position text
(pyvdrm.drm), wildtypeMismatch is the ValueError of Mutation.__eq__,
valueErr is a bare ValueError. -/
inductive EvalErr where
  | missingPosition : Nat → EvalErr
  | wildtypeMismatch : EvalErr
  | valueErr : EvalErr
deriving DecidableEq

/-- The environment scan loop of AsiMutations.__call__, hcvr2.py lines
241-252, carrying the is_found accumulator. -/
def asiLoop (atom : MutationSet) (found : Bool) :
    List MutationSet → Except EvalErr Score
  | [] =>
      if found then .ok ⟨.b false, ∅, []⟩
      else .error (.missingPosition atom.pos)
  | ms :: rest =>
      let found' := found || (ms.pos == atom.pos)
      match msIntersect atom ms with
      | .error _ => .error .wildtypeMismatch
      | .ok inter =>
          if inter ≠ ∅ then
            .ok ⟨.b true, inter.image (fun v => (atom.pos, v)), []⟩
          else asiLoop atom found' rest

/-- AsiMutations.__call__, hcvr2.py lines 240-252 (identical logic in
hcvr.py lines 158-170 up to the Score class used). -/
def asiMutationsCall (atom : MutationSet) (env : List MutationSet) :
    Except EvalErr Score :=
  asiLoop atom false env

/-- The fold of AndExpr.__call__ over the materialised child scores,
hcvr2.py lines 91-98: residues accumulate, a falsy child value returns
Score(False, emptyset) at once, and exhaustion returns Score(True,
accumulated residues). -/
def andLoop (residues : Finset Mut) : List Score → Score
  | [] => ⟨.b true, residues, []⟩
  | s :: rest =>
      let residues' := residues ∪ s.residues
      if !truthyB s.score then ⟨.b false, ∅, []⟩ else andLoop residues' rest

/-- AndExpr.__call__, hcvr2.py lines 85-98: children are all evaluated
first (a None child result becomes Score(False, [])), an empty child
list raises ValueError, then the fold runs. -/
def andExprCall (children : List (Option Score)) : Except EvalErr Score :=
  let scores := children.map (fun c => match c with
    | none => (⟨.b false, ∅, []⟩ : Score)
    | some s => s)
  if scores.isEmpty then .error .valueErr else .ok (andLoop ∅ scores)

/-- Python max over a non-empty list of bool-or-int values: the first
element attaining the numerically greatest value. -/
def pyMax (x : SVal) (xs : List SVal) : SVal :=
  xs.foldl (fun acc y => if acc.toInt < y.toInt then y else acc) x

/-- Python min over a non-empty list of bool-or-int values. -/
def pyMin (x : SVal) (xs : List SVal) : SVal :=
  xs.foldl (fun acc y => if y.toInt < acc.toInt then y else acc) x

/-- Python sum over a list of bool-or-int values (start value 0, so
the result is an int). -/
def pySum (xs : List SVal) : SVal := .i (xs.foldl (fun a y => a + y.toInt) 0)

/-- The three aggregation policies of ScoreList.__call__. -/
def aggApply (op : String) (xs : List SVal) : SVal :=
  if op = "MAX" then match xs with | [] => .i 0 | x :: t => pyMax x t
  else if op = "MIN" then match xs with | [] => .i 0 | x :: t => pyMin x t
  else pySum xs

/-- The body of ScoreList.__call__ on the materialised item scores,
hcvr2.py lines 187-196: matched_scores keeps the truthy score values,
residues union over all items (reduce, so the item list must be
non-empty), flags merge with dict.update, and the value is
`bool(matched_scores) and func(matched_scores)` - False when no item
was truthy, otherwise the aggregate of the truthy values. -/
def scoreListAggregate (op : String) (scores : List Score) : Score :=
  let matched := (scores.map (·.score)).filter truthyB
  let residues := scores.foldl (fun a s => a ∪ s.residues) ∅
  let flags := scores.foldl (fun a s => dictUpdate a s.flags) []
  ⟨if matched.isEmpty then .b false else aggApply op matched, residues, flags⟩

/-- The score slot of a score item: a signed integer literal or a
quoted flag label (hcvr2.py ScoreExpr children patterns). -/
inductive ScoreSlot where
  | num : Int → ScoreSlot
  | flag : String → ScoreSlot

/-- The AST node kinds of the hcvr2 evaluator that the verified
properties exercise.  In ScoreList the source discriminates the
accumulator keyword as children[0]; here the keyword tag is stored
next to the item list, which holds all the score items in both
cases. -/
inductive Expr where
  | atom : MutationSet → Expr
  | boolConst : Bool → Expr
  | andE : List Expr → Expr
  | orE : Expr → Expr → Expr
  | sexpr : Expr → ScoreSlot → Expr
  | slist : String → List Expr → Expr
  | scoreCond : List Expr → Expr

mutual

/-- Evaluation of an AST node against an environment, following the
__call__ methods of hcvr2.py.  BoolTrue/BoolFalse lines 70-79, AndExpr
lines 82-98, OrExpr lines 101-116, ScoreExpr lines 138-169 (the
condition result being Python False yields Score(0, []), otherwise the
literal score and the condition residues, with a flag label stored
with value [] and nominal score 0), ScoreList lines 172-196,
AsiScoreCond lines 219-226 (sum of the children results starting from
Score(False, set()), via Score.__add__). -/
def evalExpr : Expr → List MutationSet → Except EvalErr Score
  | .atom ms, env => asiMutationsCall ms env
  | .boolConst b, _ => .ok ⟨.b b, ∅, []⟩
  | .andE cs, env => do
      let scores ← evalList cs env
      if scores.isEmpty then .error .valueErr else .ok (andLoop ∅ scores)
  | .orE l r, env => do
      let s1 ← evalExpr l env
      let s2 ← evalExpr r env
      .ok ⟨if truthyB s1.score then s1.score else s2.score,
           s1.residues ∪ s2.residues, []⟩
  | .sexpr cond slot, env => do
      let result ← evalExpr cond env
      let sf : Int × Flags := match slot with
        | .num n => (n, [])
        | .flag f => (0, [(f, FVal.node [])])
      match result.score with
      | .b false => .ok ⟨.i 0, ∅, []⟩
      | _ => .ok ⟨.i sf.1, result.residues, sf.2⟩
  | .slist op items, env => do
      let scores ← evalList items env
      if scores.isEmpty then .error .valueErr
      else .ok (scoreListAggregate op scores)
  | .scoreCond cs, env => do
      let scores ← evalList cs env
      .ok (scores.foldl (fun acc s => (scoreAdd acc s).1) ⟨.b false, ∅, []⟩)

/-- Evaluation of a list of child nodes, in order, propagating the
first raised error (Python list comprehension semantics). -/
def evalList : List Expr → List MutationSet → Except EvalErr (List Score)
  | [], _ => .ok []
  | e :: rest, env => do
      let s ← evalExpr e env
      let ss ← evalList rest env
      .ok (s :: ss)

end

/-- Total size of a flags dictionary (entries plus nested flag-value
sizes); update_flags strictly increases it with every merged key. -/
def flagsSize (l : Flags) : Nat := (l.map (fun kv => 1 + fsize kv.2)).sum

/-- Python dict lookup on a flags dictionary. -/
def flookup (k : String) : Flags → Option FVal
  | [] => none
  | (k', v) :: rest => if k' == k then some v else flookup k rest

/-- The keys of an association list are pairwise distinct (true of
every Python dict). -/
def NodupKeys (l : Flags) : Prop := (l.map Prod.fst).Nodup

/-- The environment VariantCalls('100G 101D 102d') of the MAX
aggregate example. -/
def env0 : List MutationSet :=
  [⟨100, none, {'G'}⟩, ⟨101, none, {'D'}⟩, ⟨102, none, {'d'}⟩]

/-- The rule SCORE FROM (MAX (100G => -10, 101D => -20, 102D => 30))
of the MAX aggregate example. -/
def rule0 : Expr :=
  .scoreCond [.slist "MAX"
    [.sexpr (.atom ⟨100, none, {'G'}⟩) (.num (-10)),
     .sexpr (.atom ⟨101, none, {'D'}⟩) (.num (-20)),
     .sexpr (.atom ⟨102, none, {'D'}⟩) (.num 30)]]

/-- C1: the claim says an inequality parsed from the keyword
NOTMORETHAN applied to a count x returns x ≤ limit without failing.
The grammar literal (hcvr.py line 191) stores the operation string
NOTMORETHAN, but EqualityExpr.__call__ (hcvr.py lines 60-68, hcvr2.py
lines 127-135) only recognises NOMORETHAN, so every application of a
NOTMORETHAN inequality falls through and raises NotImplementedError;
the x ≤ limit branch is reachable only under the keyword NOMORETHAN,
which the grammar never produces. -/
theorem equalityExpr_notmorethan_raises :
    ∀ (n x : Int),
      equalityExprCall "NOTMORETHAN" n x = none ∧
      equalityExprCall "NOMORETHAN" n x = some (decide (x ≤ n)) := by
  intro n x
  constructor <;> rfl

/-- C9: comparing two Mutations at the same position raises the
wildtype-mismatch ValueError exactly when both wildtypes are specified
and differ; otherwise the comparison answers with variant equality,
whether or not a wildtype is present on one side only. -/
theorem mutationEq_same_pos_spec :
    ∀ (m o : Mutation), m.pos = o.pos →
      (wtConflictB m.wildtype o.wildtype = true → mutationEq m o = none) ∧
      (wtConflictB m.wildtype o.wildtype = false →
        mutationEq m o = some (decide (m.variant = o.variant))) := by
  intro m o h
  unfold mutationEq wtConflictB
  rcases m with ⟨mp, mv, mw⟩
  rcases o with ⟨op, ov, ow⟩
  simp only at h
  subst h
  cases mw <;> cases ow <;> simp_all [bne_iff_ne]

/-- Witness for C9 at concrete mutations A10G and B10G. -/
theorem mutationEq_same_pos_spec_witness :
    mutationEq ⟨10, 'G', some 'A'⟩ ⟨10, 'G', some 'B'⟩ = none :=
  (mutationEq_same_pos_spec ⟨10, 'G', some 'A'⟩ ⟨10, 'G', some 'B'⟩ rfl).1 (by decide)

/-- C10: Score equality and ordering read only the numeric value of
the score slot (with Python's bool-int identification), independent of
the residues and flags, and the value a ScoreList aggregates is a
function of the item score slots alone. -/
theorem score_compare_by_value :
    ∀ (a c : Score),
      (scoreEq a c = true ↔ a.score.toInt = c.score.toInt) ∧
      (scoreLt a c = true ↔ a.score.toInt < c.score.toInt) ∧
      (∀ (r1 r2 : Finset Mut) (f1 f2 : Flags),
        scoreEq ⟨a.score, r1, f1⟩ ⟨c.score, r2, f2⟩ = scoreEq a c ∧
        scoreLt ⟨a.score, r1, f1⟩ ⟨c.score, r2, f2⟩ = scoreLt a c) ∧
      (∀ (op : String) (l1 l2 : List Score),
        l1.map (·.score) = l2.map (·.score) →
        (scoreListAggregate op l1).score = (scoreListAggregate op l2).score) := by
  intro a c
  refine ⟨?_, ?_, ?_, ?_⟩
  · simp [scoreEq]
  · simp [scoreLt]
  · intro r1 r2 f1 f2
    exact ⟨rfl, rfl⟩
  · intro op l1 l2 h
    simp only [scoreListAggregate, h]

/-- Witness for C10 on two singleton lists with equal score slots but
different residues and flags. -/
theorem score_compare_by_value_witness :
    (scoreListAggregate "MAX" [⟨.i 5, {(1, 'A')}, []⟩]).score =
      (scoreListAggregate "MAX" [⟨.i 5, ∅, [("f", FVal.node [])]⟩]).score :=
  (score_compare_by_value ⟨.i 0, ∅, []⟩ ⟨.i 0, ∅, []⟩).2.2.2 "MAX" _ _ (by decide)

theorem fsizeList_append : ∀ (xs ys : List FVal),
    fsizeList (xs ++ ys) = fsizeList xs + fsizeList ys := by
  intro xs ys
  induction xs with
  | nil => simp [fsizeList]
  | cons x t ih => simp [fsizeList, ih]; try omega

theorem fsize_appendVal (w v : FVal) :
    fsize (appendVal w v) = fsize w + fsize v := by
  rcases w with ⟨xs⟩
  simp [appendVal, fsize, fsizeList_append, fsizeList]
  omega

theorem fsize_pos (v : FVal) : 1 ≤ fsize v := by
  rcases v with ⟨xs⟩
  simp [fsize]
  try omega

theorem flagsSize_append (l : Flags) (kv : String × FVal) :
    flagsSize (l ++ [kv]) = flagsSize l + 1 + fsize kv.2 := by
  simp [flagsSize]
  omega

theorem flagsSize_bumpKey (k : String) (v : FVal) : ∀ (l : Flags),
    hasKey k l = true → flagsSize (bumpKey k v l) = flagsSize l + fsize v := by
  intro l
  induction l with
  | nil => simp [hasKey]
  | cons kw t ih =>
      rcases kw with ⟨k', w⟩
      intro h
      by_cases hk : k' == k
      · simp [bumpKey, hk, flagsSize, fsize_appendVal]
        omega
      · simp [hasKey, hk] at h
        simp [bumpKey, hk, flagsSize] at *
        rw [ih h]
        omega

theorem flagsSize_updStep (acc : Flags) (k : String) (v : FVal) :
    flagsSize acc + 1 ≤ flagsSize (updStep acc k v) := by
  unfold updStep
  by_cases h : hasKey k acc
  · rw [if_pos h, flagsSize_bumpKey k v acc h]
    have := fsize_pos v
    omega
  · rw [if_neg h, flagsSize_append]
    omega

theorem flagsSize_update_flags : ∀ (snd acc : Flags),
    flagsSize acc + snd.length ≤ flagsSize (update_flags acc snd) := by
  intro snd
  induction snd with
  | nil => intro acc; simp [update_flags]
  | cons kv t ih =>
      intro acc
      have h1 := flagsSize_updStep acc kv.1 kv.2
      have h2 := ih (updStep acc kv.1 kv.2)
      simp only [update_flags, List.foldl_cons, List.length_cons] at *
      omega

/-- C5 counterexample: the claim says a + b leaves a's flags mapping
unchanged, yet Score.__add__ routes a's flags through update_flags,
which mutates them in place: after adding a Score carrying flag f to a
flagless Score, the left operand's flags dictionary has gained the
key. -/
theorem scoreAdd_mutates_left_flags :
    ((scoreAdd ⟨.i 1, ∅, []⟩ ⟨.i 2, ∅, [("f", FVal.node [])]⟩).2.1).flags ≠
      (⟨.i 1, ∅, []⟩ : Score).flags := by
  intro h
  simp [scoreAdd, update_flags, updStep, hasKey] at h

/-- C5 amended: a + b (and a - b) does return a fresh Score combining
the scores, residues and flags of both operands, and leaves b - and
a's score and residues - unchanged; but a's flags dictionary is
updated in place (the result aliases it), so it survives the addition
unchanged exactly when b carries no flags. -/
theorem scoreAdd_frame_spec :
    ∀ (a c : Score),
      (scoreAdd a c).1 = ⟨svalAdd a.score c.score, a.residues ∪ c.residues,
                          update_flags a.flags c.flags⟩ ∧
      (scoreAdd a c).2.2 = c ∧
      ((scoreAdd a c).2.1).score = a.score ∧
      ((scoreAdd a c).2.1).residues = a.residues ∧
      (((scoreAdd a c).2.1).flags = a.flags ↔ c.flags = []) ∧
      (scoreSub a c).1 = ⟨svalSub a.score c.score, a.residues ∪ c.residues,
                          update_flags a.flags c.flags⟩ := by
  intro a c
  refine ⟨rfl, rfl, rfl, rfl, ⟨?_, ?_⟩, rfl⟩
  · intro h
    by_contra hne
    have hlen : 1 ≤ c.flags.length := by
      cases hc : c.flags with
      | nil => exact absurd hc hne
      | cons x t => simp
    have := flagsSize_update_flags c.flags a.flags
    have hsz := congrArg flagsSize h
    simp only [scoreAdd] at hsz
    omega
  · intro h
    simp [scoreAdd, h, update_flags]

theorem flookup_eq_none_of_not_mem (k : String) :
    ∀ (l : Flags), k ∉ l.map Prod.fst → flookup k l = none := by
  intro l
  induction l with
  | nil => intro _; rfl
  | cons kv t ih =>
      rcases kv with ⟨k', v⟩
      intro h
      simp only [List.map_cons, List.mem_cons] at h
      push_neg at h
      have hk : (k' == k) = false := by simp [Ne.symm h.1]
      simp [flookup, hk, ih h.2]

theorem hasKey_eq_isSome_flookup (k : String) :
    ∀ (l : Flags), hasKey k l = (flookup k l).isSome := by
  intro l
  induction l with
  | nil => rfl
  | cons kv t ih =>
      rcases kv with ⟨k', v⟩
      by_cases hk : k' == k
      · simp [hasKey, flookup, hk]
      · simp only [hasKey, flookup, hk, Bool.false_or, if_neg, ih]
        simp [hk]

theorem flookup_append (k : String) :
    ∀ (l1 l2 : Flags),
      flookup k (l1 ++ l2) =
        match flookup k l1 with
        | some v => some v
        | none => flookup k l2 := by
  intro l1 l2
  induction l1 with
  | nil => simp [flookup]
  | cons kv t ih =>
      rcases kv with ⟨k', v⟩
      by_cases hk : k' == k
      · simp [flookup, hk]
      · simp [flookup, hk, ih]

theorem flookup_bumpKey_self (k : String) (v : FVal) :
    ∀ (l : Flags),
      flookup k (bumpKey k v l) = (flookup k l).map (fun w => appendVal w v) := by
  intro l
  induction l with
  | nil => rfl
  | cons kv t ih =>
      rcases kv with ⟨k', w⟩
      by_cases hk : k' == k
      · simp [bumpKey, flookup, hk]
      · simp [bumpKey, flookup, hk, ih]

theorem flookup_bumpKey_other (k k0 : String) (v : FVal) (h : k ≠ k0) :
    ∀ (l : Flags), flookup k (bumpKey k0 v l) = flookup k l := by
  intro l
  induction l with
  | nil => rfl
  | cons kv t ih =>
      rcases kv with ⟨k', w⟩
      by_cases hk : k' == k0
      · have hne : (k' == k) = false := by
          have : k' = k0 := by simpa using hk
          simp [this, Ne.symm h]
        simp [bumpKey, flookup, hk, hne]
      · simp [bumpKey, flookup, hk, ih]

theorem flookup_setKey_self (k : String) (v : FVal) :
    ∀ (l : Flags), hasKey k l = true → flookup k (setKey k v l) = some v := by
  intro l
  induction l with
  | nil => simp [hasKey]
  | cons kv t ih =>
      rcases kv with ⟨k', w⟩
      intro h
      by_cases hk : k' == k
      · simp [setKey, flookup, hk]
      · simp only [hasKey, hk, Bool.false_or] at h
        simp [setKey, flookup, hk, ih h]

theorem flookup_setKey_other (k k0 : String) (v : FVal) (h : k ≠ k0) :
    ∀ (l : Flags), flookup k (setKey k0 v l) = flookup k l := by
  intro l
  induction l with
  | nil => rfl
  | cons kv t ih =>
      rcases kv with ⟨k', w⟩
      by_cases hk : k' == k0
      · have hne : (k' == k) = false := by
          have : k' = k0 := by simpa using hk
          simp [this, Ne.symm h]
        simp [setKey, flookup, hk, hne]
      · simp [setKey, flookup, hk, ih]

theorem flookup_updStep_self (fst : Flags) (k : String) (v : FVal) :
    flookup k (updStep fst k v) =
      match flookup k fst with
      | some w => some (appendVal w v)
      | none => some v := by
  unfold updStep
  by_cases hh : hasKey k fst
  · rw [if_pos hh, flookup_bumpKey_self]
    rw [hasKey_eq_isSome_flookup] at hh
    cases hf : flookup k fst
    · rw [hf] at hh; simp at hh
    · simp
  · rw [if_neg hh, flookup_append]
    rw [hasKey_eq_isSome_flookup] at hh
    cases hf : flookup k fst
    · simp [flookup]
    · rw [hf] at hh; simp at hh

theorem flookup_updStep_other (fst : Flags) (k k0 : String) (v0 : FVal)
    (hk : k ≠ k0) : flookup k (updStep fst k0 v0) = flookup k fst := by
  unfold updStep
  by_cases hh : hasKey k0 fst
  · rw [if_pos hh, flookup_bumpKey_other k k0 v0 hk]
  · rw [if_neg hh, flookup_append]
    cases hf : flookup k fst
    · simp [flookup, show (k0 == k) = false by simp [Ne.symm hk]]
    · simp

theorem flookup_dictStep_self (fst : Flags) (k : String) (v : FVal) :
    flookup k (dictStep fst k v) = some v := by
  unfold dictStep
  by_cases hh : hasKey k fst
  · rw [if_pos hh]
    exact flookup_setKey_self k v fst hh
  · rw [if_neg hh, flookup_append]
    rw [hasKey_eq_isSome_flookup] at hh
    cases hf : flookup k fst
    · simp [flookup]
    · rw [hf] at hh; simp at hh

theorem flookup_dictStep_other (fst : Flags) (k k0 : String) (v0 : FVal)
    (hk : k ≠ k0) : flookup k (dictStep fst k0 v0) = flookup k fst := by
  unfold dictStep
  by_cases hh : hasKey k0 fst
  · rw [if_pos hh, flookup_setKey_other k k0 v0 hk]
  · rw [if_neg hh, flookup_append]
    cases hf : flookup k fst
    · simp [flookup, show (k0 == k) = false by simp [Ne.symm hk]]
    · simp

/-- C6 counterexample: on a key collision, update_flags appends the
right-hand value list as a single nested element rather than
concatenating the two value lists, and the flag merge inside
ScoreList.__call__ uses dict.update, which overwrites the colliding
key instead of appending at all. -/
theorem update_flags_not_concat :
    update_flags [("k", FVal.node [FVal.node []])] [("k", FVal.node [FVal.node []])] =
      [("k", FVal.node [FVal.node [], FVal.node [FVal.node []]])] ∧
    ([("k", FVal.node [FVal.node [], FVal.node [FVal.node []]])] : Flags) ≠
      [("k", FVal.node [FVal.node [], FVal.node []])] ∧
    dictUpdate [("k", FVal.node [FVal.node []])] [("k", FVal.node [])] =
      [("k", FVal.node [])] := by
  refine ⟨rfl, ?_, rfl⟩
  intro h
  have h2 := congrArg flagsSize h
  exact absurd h2 (by decide)

/-- C6 amended: when two Results are combined by Score addition (the
law used by the top-level AsiScoreCond fold), residue sets union and
the flag dictionaries merge key-wise, a key present in both operands
keeping its stored list with the other operand's whole value list
appended to it as one element; ScoreList's own merge over its items
instead overwrites a colliding key with the last item's value. -/
theorem flag_merge_spec :
    ∀ (fst snd : Flags), NodupKeys snd →
      (∀ k, flookup k (update_flags fst snd) =
        match flookup k fst, flookup k snd with
        | some w, some v => some (appendVal w v)
        | some w, none => some w
        | none, some v => some v
        | none, none => none) ∧
      (∀ k, flookup k (dictUpdate fst snd) =
        match flookup k snd with
        | some v => some v
        | none => flookup k fst) ∧
      (∀ (a c : Score), ((scoreAdd a c).1).residues = a.residues ∪ c.residues) := by
  intro fst snd h
  refine ⟨?_, ?_, fun a c => rfl⟩
  · induction snd generalizing fst with
    | nil =>
        intro k
        cases hf : flookup k fst <;> simp [update_flags, flookup, hf]
    | cons kv t ih =>
        intro k
        rcases kv with ⟨k0, v0⟩
        have hnd : NodupKeys t := by
          simpa [NodupKeys] using (List.nodup_cons.mp h).2
        have hk0t : k0 ∉ t.map Prod.fst := by
          simpa [NodupKeys] using (List.nodup_cons.mp h).1
        have step : update_flags fst ((k0, v0) :: t) =
            update_flags (updStep fst k0 v0) t := rfl
        rw [step, ih (updStep fst k0 v0) hnd k]
        by_cases hk : k = k0
        · rw [hk]
          have ht : flookup k0 t = none := flookup_eq_none_of_not_mem k0 t hk0t
          rw [ht, flookup_updStep_self fst k0 v0]
          have hc : flookup k0 ((k0, v0) :: t) = some v0 := by simp [flookup]
          rw [hc]
          cases hf : flookup k0 fst <;> simp
        · rw [flookup_updStep_other fst k k0 v0 hk]
          have ht : flookup k ((k0, v0) :: t) = flookup k t := by
            simp [flookup, show (k0 == k) = false by simp [Ne.symm hk]]
          rw [ht]
  · induction snd generalizing fst with
    | nil =>
        intro k
        simp [dictUpdate, flookup]
    | cons kv t ih =>
        intro k
        rcases kv with ⟨k0, v0⟩
        have hnd : NodupKeys t := by
          simpa [NodupKeys] using (List.nodup_cons.mp h).2
        have hk0t : k0 ∉ t.map Prod.fst := by
          simpa [NodupKeys] using (List.nodup_cons.mp h).1
        have step : dictUpdate fst ((k0, v0) :: t) =
            dictUpdate (dictStep fst k0 v0) t := rfl
        rw [step, ih (dictStep fst k0 v0) hnd k]
        by_cases hk : k = k0
        · rw [hk]
          have ht : flookup k0 t = none := flookup_eq_none_of_not_mem k0 t hk0t
          rw [ht, flookup_dictStep_self fst k0 v0]
          have hc : flookup k0 ((k0, v0) :: t) = some v0 := by simp [flookup]
          rw [hc]
        · rw [flookup_dictStep_other fst k k0 v0 hk]
          have ht : flookup k ((k0, v0) :: t) = flookup k t := by
            simp [flookup, show (k0 == k) = false by simp [Ne.symm hk]]
          rw [ht]

/-- Witness for C6 on a one-key collision. -/
theorem flag_merge_spec_witness :
    flookup "k" (update_flags [("k", FVal.node [])] [("k", FVal.node [])]) =
      some (appendVal (FVal.node []) (FVal.node [])) := by
  exact (flag_merge_spec [("k", FVal.node [])] [("k", FVal.node [])]
    (by simp [NodupKeys])).1 "k"

theorem andLoop_of_falsy : ∀ (ss : List Score) (acc : Finset Mut),
    (∃ s ∈ ss, truthyB s.score = false) → andLoop acc ss = ⟨.b false, ∅, []⟩ := by
  intro ss
  induction ss with
  | nil => intro acc h; simp at h
  | cons s t ih =>
      intro acc h
      by_cases hs : truthyB s.score
      · have hex : ∃ x ∈ t, truthyB x.score = false := by
          rcases h with ⟨x, hx, hfx⟩
          rcases List.mem_cons.mp hx with h1 | h2
          · rw [h1] at hfx; rw [hfx] at hs; simp at hs
          · exact ⟨x, h2, hfx⟩
        simp only [andLoop, hs, Bool.not_true, Bool.false_eq_true, if_false]
        exact ih _ hex
      · simp only [Bool.not_eq_true] at hs
        simp [andLoop, hs]

theorem andLoop_of_truthy : ∀ (ss : List Score) (acc : Finset Mut),
    (∀ s ∈ ss, truthyB s.score = true) →
    andLoop acc ss = ⟨.b true, ss.foldl (fun a s => a ∪ s.residues) acc, []⟩ := by
  intro ss
  induction ss with
  | nil => intro acc _; rfl
  | cons s t ih =>
      intro acc h
      have hs : truthyB s.score = true := h s (List.mem_cons_self s t)
      have ht : ∀ x ∈ t, truthyB x.score = true :=
        fun x hx => h x (List.mem_cons_of_mem s hx)
      simp only [andLoop, hs, Bool.not_true, Bool.false_eq_true, if_false]
      rw [ih _ ht]
      rfl

/-- C7: AndExpr folds its evaluated children in order: some child with
a falsy value makes the whole expression Result{false, no residues} no
matter what the other children are - in particular over the child pair
[false, X] the result is false with no residues for every X - and when
every child value is truthy the result is Result{true, union of all
the children's residues}. -/
theorem andExpr_fold_spec :
    ∀ (ss : List Score), ss ≠ [] →
      ((∃ s ∈ ss, truthyB s.score = false) →
        andExprCall (ss.map some) = .ok ⟨.b false, ∅, []⟩) ∧
      ((∀ s ∈ ss, truthyB s.score = true) →
        andExprCall (ss.map some) =
          .ok ⟨.b true, ss.foldl (fun a s => a ∪ s.residues) ∅, []⟩) ∧
      (∀ (X : Score),
        andExprCall [some ⟨.b false, ∅, []⟩, some X] = .ok ⟨.b false, ∅, []⟩) := by
  intro ss hne
  have hmap : (ss.map some).map
      (fun c => match c with
        | none => (⟨.b false, ∅, []⟩ : Score)
        | some s => s) = ss := by
    rw [List.map_map]
    exact List.map_id'' (fun x => rfl) ss
  have hempty : (ss.map some).map
      (fun c => match c with
        | none => (⟨.b false, ∅, []⟩ : Score)
        | some s => s) ≠ [] := by
    rw [hmap]; exact hne
  refine ⟨?_, ?_, ?_⟩
  · intro h
    unfold andExprCall
    rw [hmap]
    rw [if_neg (by simpa [List.isEmpty_iff] using hne)]
    rw [andLoop_of_falsy ss ∅ h]
  · intro h
    unfold andExprCall
    rw [hmap]
    rw [if_neg (by simpa [List.isEmpty_iff] using hne)]
    rw [andLoop_of_truthy ss ∅ h]
  · intro X
    unfold andExprCall
    simp only [List.map_cons, List.map_nil, List.isEmpty_cons]
    rw [if_neg (by simp)]
    rfl

/-- Witness for C7 on the child list [true-with-residue, false]. -/
theorem andExpr_fold_spec_witness :
    andExprCall [some ⟨.b true, {(1, 'A')}, []⟩, some ⟨.b false, ∅, []⟩] =
      .ok ⟨.b false, ∅, []⟩ := by
  have h := (andExpr_fold_spec [⟨.b true, {(1, 'A')}, []⟩, ⟨.b false, ∅, []⟩]
    (by simp)).1
  exact h ⟨⟨.b false, ∅, []⟩, by simp, rfl⟩

theorem msIntersect_ne_pos (atom ms : MutationSet) (h : ms.pos ≠ atom.pos) :
    msIntersect atom ms = .ok ∅ := by
  unfold msIntersect
  rw [if_neg (Ne.symm h)]

theorem asiLoop_cons_skip (atom ms : MutationSet) (t : List MutationSet)
    (found : Bool) (inter : Finset Char)
    (h : msIntersect atom ms = .ok inter) (he : inter = ∅) :
    asiLoop atom found (ms :: t) =
      asiLoop atom (found || (ms.pos == atom.pos)) t := by
  conv_lhs => unfold asiLoop
  rw [h, he]
  simp

theorem asiLoop_cons_hit (atom ms : MutationSet) (t : List MutationSet)
    (found : Bool) (inter : Finset Char)
    (h : msIntersect atom ms = .ok inter) (hne : inter ≠ ∅) :
    asiLoop atom found (ms :: t) =
      .ok ⟨.b true, inter.image (fun v => (atom.pos, v)), []⟩ := by
  unfold asiLoop
  rw [h]
  simp [hne]

theorem asiLoop_no_pos (atom : MutationSet) :
    ∀ (env : List MutationSet) (found : Bool),
      (∀ ms ∈ env, ms.pos ≠ atom.pos) →
      asiLoop atom found env =
        if found then .ok ⟨.b false, ∅, []⟩
        else .error (.missingPosition atom.pos) := by
  intro env
  induction env with
  | nil => intro found _; rfl
  | cons ms t ih =>
      intro found h
      have hpos : ms.pos ≠ atom.pos := h ms (List.mem_cons_self ms t)
      have ht : ∀ x ∈ t, x.pos ≠ atom.pos :=
        fun x hx => h x (List.mem_cons_of_mem ms hx)
      rw [asiLoop_cons_skip atom ms t found ∅ (msIntersect_ne_pos atom ms hpos) rfl]
      have hb : (ms.pos == atom.pos) = false := by simp [hpos]
      rw [hb, Bool.or_false]
      exact ih found ht

theorem asiLoop_with_pos (atom : MutationSet) :
    ∀ (env : List MutationSet) (found : Bool) (ms0 : MutationSet),
      (env.map (·.pos)).Nodup →
      (∀ ms ∈ env, ms.pos = atom.pos →
        wtConflictB atom.wildtype ms.wildtype = true →
        atom.variants ∩ ms.variants = ∅) →
      ms0 ∈ env → ms0.pos = atom.pos →
      asiLoop atom found env =
        if atom.variants ∩ ms0.variants = ∅ then .ok ⟨.b false, ∅, []⟩
        else .ok ⟨.b true,
          (atom.variants ∩ ms0.variants).image (fun v => (atom.pos, v)), []⟩ := by
  intro env
  induction env with
  | nil => intro found ms0 _ _ hmem; simp at hmem
  | cons ms t ih =>
      intro found ms0 hnd hconf hmem hpos
      have hndt : (t.map (·.pos)).Nodup := (List.nodup_cons.mp hnd).2
      have hhead : ms.pos ∉ t.map (·.pos) := (List.nodup_cons.mp hnd).1
      by_cases hmspos : ms.pos = atom.pos
      · have hms0 : ms0 = ms := by
          rcases List.mem_cons.mp hmem with h1 | h2
          · exact h1
          · exfalso
            apply hhead
            rw [hmspos, ← hpos]
            exact List.mem_map_of_mem (·.pos) h2
        subst hms0
        have hint : msIntersect atom ms0 =
            .ok (atom.variants ∩ ms0.variants) := by
          unfold msIntersect
          rw [if_pos hpos.symm]
          rw [if_neg ?hn]
          case hn =>
            rintro ⟨h1, h2⟩
            exact h1 (hconf ms0 hmem hpos h2)
        by_cases hc : atom.variants ∩ ms0.variants = ∅
        · rw [asiLoop_cons_skip atom ms0 t found _ hint hc]
          have hb : (ms0.pos == atom.pos) = true := by simp [hpos]
          rw [hb, Bool.or_true]
          have ht : ∀ x ∈ t, x.pos ≠ atom.pos := by
            intro x hx
            rw [← hpos]
            intro hxe
            apply hhead
            rw [← hxe]
            exact List.mem_map_of_mem (·.pos) hx
          rw [asiLoop_no_pos atom t true ht]
          simp [hc]
        · rw [asiLoop_cons_hit atom ms0 t found _ hint hc]
          rw [if_neg hc]
      · have hms0t : ms0 ∈ t := by
          rcases List.mem_cons.mp hmem with h1 | h2
          · exfalso; rw [h1] at hpos; exact hmspos hpos
          · exact h2
        have hconft : ∀ x ∈ t, x.pos = atom.pos →
            wtConflictB atom.wildtype x.wildtype = true →
            atom.variants ∩ x.variants = ∅ :=
          fun x hx => hconf x (List.mem_cons_of_mem ms hx)
        rw [asiLoop_cons_skip atom ms t found ∅ (msIntersect_ne_pos atom ms hmspos) rfl]
        have hb : (ms.pos == atom.pos) = false := by simp [hmspos]
        rw [hb, Bool.or_false]
        exact ih _ ms0 hndt hconft hms0t hpos

/-- C4 counterexample: with atom A10G and the single environment set
B10G, position 10 is present and the variant-letter intersection is
non-empty, yet evaluation neither returns a true result nor a false
one: the frozenset intersection compares the two Mutations that share
(10, G), and Mutation.__eq__ raises the wildtype-mismatch ValueError
(vcf.py lines 130-136). -/
theorem asiMutations_wildtype_raises :
    asiMutationsCall ⟨10, some 'A', {'G'}⟩ [⟨10, some 'B', {'G'}⟩] =
      .error .wildtypeMismatch := by
  rfl

/-- C4 amended: provided no environment set at the atom's position
both conflicts with the atom's wildtype and shares a variant letter
with it (the condition under which the set intersection itself raises
ValueError), evaluation of a mutation atom raises MissingPositionError
naming the position exactly when no environment set carries that
position; an environment set at the position with empty variant
intersection gives Result{false, no residues}, and one with non-empty
intersection gives Result{true, the intersection}. -/
theorem asiMutations_position_spec :
    ∀ (atom : MutationSet) (env : List MutationSet),
      (env.map (·.pos)).Nodup →
      (∀ ms ∈ env, ms.pos = atom.pos →
        wtConflictB atom.wildtype ms.wildtype = true →
        atom.variants ∩ ms.variants = ∅) →
      ((∀ ms ∈ env, ms.pos ≠ atom.pos) →
        asiMutationsCall atom env = .error (.missingPosition atom.pos)) ∧
      (∀ ms0 ∈ env, ms0.pos = atom.pos →
        (atom.variants ∩ ms0.variants = ∅ →
          asiMutationsCall atom env = .ok ⟨.b false, ∅, []⟩) ∧
        (atom.variants ∩ ms0.variants ≠ ∅ →
          asiMutationsCall atom env = .ok ⟨.b true,
            (atom.variants ∩ ms0.variants).image (fun v => (atom.pos, v)),
            []⟩)) := by
  intro atom env hnd hconf
  constructor
  · intro h
    unfold asiMutationsCall
    rw [asiLoop_no_pos atom env false h]
    rfl
  · intro ms0 hmem hpos
    have h := asiLoop_with_pos atom env false ms0 hnd hconf hmem hpos
    constructor
    · intro hc
      unfold asiMutationsCall
      rw [h, if_pos hc]
    · intro hc
      unfold asiMutationsCall
      rw [h, if_neg hc]

/-- Witness for C4: the rule atom 41L against the environments
VariantCalls('41d') (present, no match: false) and
VariantCalls('67N') (absent: MissingPositionError 41). -/
theorem asiMutations_position_spec_witness :
    asiMutationsCall ⟨41, none, {'L'}⟩ [⟨41, none, {'d'}⟩] = .ok ⟨.b false, ∅, []⟩ ∧
    asiMutationsCall ⟨41, none, {'L'}⟩ [⟨67, none, {'N'}⟩] =
      .error (.missingPosition 41) := by
  constructor
  · exact (((asiMutations_position_spec ⟨41, none, {'L'}⟩ [⟨41, none, {'d'}⟩]
      (by decide) (by intro ms _ _ h; simp [wtConflictB] at h)).2
      ⟨41, none, {'d'}⟩ (by simp) rfl).1 (by decide))
  · exact ((asiMutations_position_spec ⟨41, none, {'L'}⟩ [⟨67, none, {'N'}⟩]
      (by decide) (by intro ms hm hp; simp at hm; rw [hm] at hp; simp at hp)).1
      (by intro ms hm; simp at hm; rw [hm]; decide))

theorem mkSets_mem : ∀ (rs : List Char) (sam : List (List Char)) (i : Nat)
    (ms : MutationSet),
    ms ∈ mkSets i rs sam ↔
      ∃ (j : Nat) (r : Char) (a : List Char),
        rs[j]? = some r ∧ sam[j]? = some a ∧ a.isEmpty = false ∧
        ms = ⟨i + j, some r, a.toFinset⟩ := by
  intro rs
  induction rs with
  | nil =>
      intro sam i ms
      cases sam <;> simp [mkSets]
  | cons r rs' ih =>
      intro sam i ms
      cases sam with
      | nil => simp [mkSets]
      | cons a sam' =>
          simp only [mkSets, List.mem_append]
          constructor
          · intro h
            rcases h with h | h
            · by_cases he : a.isEmpty
              · rw [if_pos he] at h; simp at h
              · rw [if_neg he] at h
                simp only [List.mem_singleton] at h
                refine ⟨0, r, a, by simp, by simp, by simpa using he, by simpa using h⟩
            · rcases (ih sam' (i + 1) ms).mp h with ⟨j, rr, aa, h1, h2, h3, h4⟩
              refine ⟨j + 1, rr, aa, by simpa using h1, by simpa using h2, h3, ?_⟩
              rw [h4]
              congr 1
              omega
          · rintro ⟨j, rr, aa, h1, h2, h3, h4⟩
            cases j with
            | zero =>
                simp only [List.getElem?_cons_zero, Option.some.injEq] at h1 h2
                left
                rw [if_neg (by rw [h2]; simp [h3])]
                simp only [List.mem_singleton]
                rw [h4, ← h1, ← h2]
                congr 1
            | succ j' =>
                right
                apply (ih sam' (i + 1) ms).mpr
                refine ⟨j', rr, aa, by simpa using h1, by simpa using h2, h3, ?_⟩
                rw [h4]
                congr 1
                omega

theorem mkSets_pos_ge (rs : List Char) (sam : List (List Char)) (i : Nat)
    (ms : MutationSet) (h : ms ∈ mkSets i rs sam) : i ≤ ms.pos := by
  rcases (mkSets_mem rs sam i ms).mp h with ⟨j, r, a, _, _, _, h4⟩
  rw [h4]
  simp

theorem mkSets_pos_nodup : ∀ (rs : List Char) (sam : List (List Char)) (i : Nat),
    ((mkSets i rs sam).map (·.pos)).Nodup := by
  intro rs
  induction rs with
  | nil =>
      intro sam i
      cases sam <;> simp [mkSets]
  | cons r rs' ih =>
      intro sam i
      cases sam with
      | nil => simp [mkSets]
      | cons a sam' =>
          simp only [mkSets, List.map_append]
          apply List.Nodup.append
          · by_cases he : a.isEmpty <;> simp [he]
          · exact ih sam' (i + 1)
          · intro x hx1 hx2
            rcases List.mem_map.mp hx2 with ⟨ms, hms, hpos⟩
            have hge : i + 1 ≤ ms.pos := mkSets_pos_ge rs' sam' (i + 1) ms hms
            by_cases he : a.isEmpty
            · rw [if_pos he] at hx1; simp at hx1
            · rw [if_neg he] at hx1
              simp only [List.map_cons, List.map_nil, List.mem_singleton] at hx1
              rw [hx1] at hpos
              rw [← hpos] at hge
              omega

/-- C2 counterexample: diffing the reference "A" against the sample
["A"] - the sample call at position 1 equals the reference residue -
still produces a MutationSet at position 1, because the comprehension
guard in VariantCalls.__new__ (vcf.py line 42) only tests that the
call is non-empty, never that it differs from the reference. -/
theorem variantCalls_keeps_matching_position :
    variantCallsFromSample ['A'] [['A']] = .ok [⟨1, some 'A', {'A'}⟩] := by
  rfl

/-- C2 amended: constructing VariantCalls from a reference/sample pair
of equal length yields exactly one MutationSet, at position j+1 with
the reference residue as wildtype and the sample calls as variants,
for every 0-based offset j whose sample call is non-empty - including
positions where the call equals the reference residue - and none for
positions with an empty call. -/
theorem variantCalls_diff_spec :
    ∀ (reference : List Char) (sample : List (List Char)),
      reference.length = sample.length →
      ∃ sets, variantCallsFromSample reference sample = .ok sets ∧
        ∀ ms : MutationSet, ms ∈ sets ↔
          ∃ (j : Nat) (r : Char) (a : List Char),
            reference[j]? = some r ∧ sample[j]? = some a ∧ a.isEmpty = false ∧
            ms = ⟨j + 1, some r, a.toFinset⟩ := by
  intro reference sample h
  refine ⟨mkSets 1 reference sample, ?_, ?_⟩
  · unfold variantCallsFromSample
    rw [if_neg (by omega)]
    rw [if_pos (mkSets_pos_nodup reference sample 1)]
  · intro ms
    rw [mkSets_mem reference sample 1 ms]
    constructor <;> rintro ⟨j, r, a, h1, h2, h3, h4⟩ <;>
      refine ⟨j, r, a, h1, h2, h3, ?_⟩ <;> rw [h4] <;> congr 1 <;> omega

/-- Witness for C2 at reference "A", sample ["A"]. -/
theorem variantCalls_diff_spec_witness :
    ∃ sets, variantCallsFromSample ['A'] [['A']] = .ok sets ∧
      ∀ ms : MutationSet, ms ∈ sets ↔
        ∃ (j : Nat) (r : Char) (a : List Char),
          (['A'] : List Char)[j]? = some r ∧ [['A']][j]? = some a ∧
          a.isEmpty = false ∧ ms = ⟨j + 1, some r, a.toFinset⟩ :=
  variantCalls_diff_spec ['A'] [['A']] rfl

theorem filter_truthy_idem : ∀ (scores : List Score),
    ((scores.filter (fun s => truthyB s.score)).map (·.score)).filter truthyB =
      (scores.map (·.score)).filter truthyB := by
  intro scores
  induction scores with
  | nil => rfl
  | cons s t ih =>
      by_cases hs : truthyB s.score
      · simp [List.filter_cons, hs, ih]
      · simp only [Bool.not_eq_true] at hs
        simp [List.filter_cons, hs, ih]

/-- C8: a ScoreList aggregates only the truthy item scores - dropping
the non-truthy items never changes the aggregate value - an all-falsy
item list yields the value False, a truthy-score list aggregates with
max under MAX, min under MIN and sum otherwise, and the concrete rule
SCORE FROM (MAX (100G => -10, 101D => -20, 102D => 30)) evaluates to
-10 against the calls 100G 101D 102d. -/
theorem scoreList_aggregate_spec :
    (∀ (op : String) (scores : List Score),
      (scoreListAggregate op scores).score =
        (scoreListAggregate op (scores.filter (fun s => truthyB s.score))).score) ∧
    (∀ (op : String) (scores : List Score),
      (∀ s ∈ scores, truthyB s.score = false) →
      (scoreListAggregate op scores).score = .b false) ∧
    (∀ (scores : List Score) (x : SVal) (xs : List SVal),
      (scores.map (·.score)).filter truthyB = x :: xs →
      (scoreListAggregate "MAX" scores).score = pyMax x xs ∧
      (scoreListAggregate "MIN" scores).score = pyMin x xs) ∧
    (∀ (op : String) (scores : List Score),
      op ≠ "MAX" → op ≠ "MIN" →
      (scores.map (·.score)).filter truthyB ≠ [] →
      (scoreListAggregate op scores).score =
        pySum ((scores.map (·.score)).filter truthyB)) ∧
    (∃ s, evalExpr rule0 env0 = .ok s ∧ s.score = .i (-10)) := by
  refine ⟨?_, ?_, ?_, ?_, ?_⟩
  · intro op scores
    simp only [scoreListAggregate, filter_truthy_idem]
  · intro op scores h
    have hf : (scores.map (·.score)).filter truthyB = [] := by
      rw [List.filter_eq_nil_iff]
      intro v hv
      rcases List.mem_map.mp hv with ⟨s, hs, hvs⟩
      rw [← hvs]
      simp [h s hs]
    simp [scoreListAggregate, hf]
  · intro scores x xs h
    constructor <;> simp [scoreListAggregate, h, aggApply]
  · intro op scores hmax hmin hne
    rcases hx : (scores.map (·.score)).filter truthyB with _ | ⟨x, xs⟩
    · exact absurd hx hne
    · simp [scoreListAggregate, hx, aggApply, hmax, hmin]
  · exact ⟨_, rfl, by decide⟩

/-- Witness for C8 at the item scores of the MAX example. -/
theorem scoreList_aggregate_spec_witness :
    (scoreListAggregate "MAX"
      [⟨.i (-10), ∅, []⟩, ⟨.i (-20), ∅, []⟩, ⟨.i 0, ∅, []⟩]).score =
      pyMax (.i (-10)) [.i (-20)] :=
  (scoreList_aggregate_spec.2.2.1
    [⟨.i (-10), ∅, []⟩, ⟨.i (-20), ∅, []⟩, ⟨.i 0, ∅, []⟩]
    (.i (-10)) [.i (-20)] (by decide)).1

theorem digitChar_spec : ∀ m < 10,
    isDigitB (digitChar m) = true ∧ digitVal (digitChar m) = m := by
  decide

theorem parseNat_append_digit (l : List Char) (c : Char) :
    parseNat (l ++ [c]) = parseNat l * 10 + digitVal c := by
  unfold parseNat
  rw [List.foldl_append]
  rfl

theorem natDecimalAux_spec : ∀ (fuel n : Nat), n < fuel →
    natDecimalAux fuel n ≠ [] ∧
    (∀ c ∈ natDecimalAux fuel n, isDigitB c = true) ∧
    parseNat (natDecimalAux fuel n) = n := by
  intro fuel
  induction fuel with
  | zero => intro n h; omega
  | succ fuel ih =>
      intro n h
      by_cases h10 : n < 10
      · refine ⟨by simp [natDecimalAux, h10], ?_, ?_⟩
        · intro c hc
          simp only [natDecimalAux, h10, if_pos, List.mem_singleton] at hc
          rw [hc]
          exact (digitChar_spec n h10).1
        · simp only [natDecimalAux, h10, if_pos]
          unfold parseNat
          simp [(digitChar_spec n h10).2]
      · have hdiv : n / 10 < fuel := by
          have := Nat.div_lt_self (show 0 < n by omega) (show 1 < 10 by omega)
          omega
        rcases ih (n / 10) hdiv with ⟨ih1, ih2, ih3⟩
        refine ⟨by simp [natDecimalAux, h10], ?_, ?_⟩
        · intro c hc
          simp only [natDecimalAux, h10, if_false] at hc
          rcases List.mem_append.mp hc with h1 | h1
          · exact ih2 c h1
          · simp only [List.mem_singleton] at h1
            rw [h1]
            exact (digitChar_spec (n % 10) (Nat.mod_lt n (by omega))).1
        · simp only [natDecimalAux, h10, if_false]
          rw [parseNat_append_digit, ih3,
            (digitChar_spec (n % 10) (Nat.mod_lt n (by omega))).2]
          omega

theorem natDecimal_ne_nil (n : Nat) : natDecimal n ≠ [] :=
  (natDecimalAux_spec (n + 1) n (by omega)).1

theorem natDecimal_all_digits (n : Nat) :
    ∀ c ∈ natDecimal n, isDigitB c = true :=
  (natDecimalAux_spec (n + 1) n (by omega)).2.1

theorem parseNat_natDecimal (n : Nat) : parseNat (natDecimal n) = n :=
  (natDecimalAux_spec (n + 1) n (by omega)).2.2

theorem isDigitB_not_upper (c : Char) (h : isDigitB c = true) :
    isUpperB c = false := by
  simp only [isDigitB, decide_eq_true_eq] at h
  simp only [isUpperB, decide_eq_false_iff_not]
  omega

theorem isVariantB_not_digit (c : Char) (h : isVariantB c = true) :
    isDigitB c = false := by
  simp only [isVariantB, Bool.or_eq_true, beq_iff_eq] at h
  simp only [isDigitB, decide_eq_false_iff_not]
  rcases h with (h | h) | h
  · rw [h]; decide
  · rw [h]; decide
  · simp only [isUpperB, decide_eq_true_eq] at h
    omega

theorem isVariantB_bang : isVariantB '!' = false := by decide

/-- Shared evaluation of the text-constructor regex on a well-formed
prefix: optional uppercase wildtype, then the decimal digits of the
position, then a body whose first character is not a digit. -/
theorem parseMSL_split (wt : Option Char) (p : Nat) (body : List Char)
    (hwt : ∀ c, wt = some c → isUpperB c = true)
    (hbody : ∀ c t, body = c :: t → isDigitB c = false) :
    parseMSL (wtList wt ++ natDecimal p ++ body) =
      parseTail (splitBang body).1 (splitBang body).2 p wt := by
  have htake : (natDecimal p ++ body).takeWhile isDigitB = natDecimal p := by
    rw [List.takeWhile_append_of_pos (natDecimal_all_digits p)]
    cases hb : body with
    | nil => simp
    | cons c t =>
        rw [List.takeWhile_cons_of_neg]
        · simp
        · simp [hbody c t hb]
  have hdrop : (natDecimal p ++ body).dropWhile isDigitB = body := by
    rw [List.dropWhile_append_of_pos (natDecimal_all_digits p)]
    cases hb : body with
    | nil => simp
    | cons c t =>
        rw [List.dropWhile_cons_of_neg]
        simp [hbody c t hb]
  have hstep1 : splitWt (wtList wt ++ natDecimal p ++ body) =
      (wt, natDecimal p ++ body) := by
    cases hw : wt with
    | some c =>
        simp only [wtList, List.cons_append, List.nil_append, splitWt]
        rw [if_pos (hwt c hw)]
    | none =>
        simp only [wtList, List.nil_append]
        rcases hnd : natDecimal p with _ | ⟨d, ds⟩
        · exact absurd hnd (natDecimal_ne_nil p)
        · have hd : isDigitB d = true := by
            apply natDecimal_all_digits p
            rw [hnd]
            exact List.mem_cons_self d ds
          simp only [List.cons_append, splitWt]
          rw [if_neg (by simp [isDigitB_not_upper d hd])]
  unfold parseMSL
  rw [hstep1]
  simp only [htake, hdrop]
  rw [if_neg (by simp [natDecimal_ne_nil p])]
  rw [parseNat_natDecimal]

theorem msEq_self (s : MutationSet) : msEq s s = some true := by
  unfold msEq
  rw [if_neg (by simp)]
  cases s.wildtype with
  | none => simp
  | some w => simp

theorem contains_eq_decide_mem (l : List Char) (c : Char) :
    l.contains c = decide (c ∈ l) := by
  by_cases h : c ∈ l
  · have h1 : l.contains c = true := List.elem_iff.mpr h
    rw [h1]
    simp [h]
  · have h1 : l.contains c ≠ true := fun hq => h (List.elem_iff.mp hq)
    have h2 : l.contains c = false := by
      cases hq : l.contains c
      · rfl
      · exact absurd hq h1
    rw [h2]
    simp [h]

theorem splitBang_no_bang (l : List Char) (h : ∀ c t, l = c :: t → c ≠ '!') :
    splitBang l = (false, l) := by
  cases l with
  | nil => rfl
  | cons c t =>
      simp only [splitBang]
      rw [if_neg (h c t rfl)]

theorem amino_all_variant : ∀ c ∈ AMINO_ALPHABET, isVariantB c = true := by
  decide

theorem sortMultiset_coe (s : Multiset Char) :
    (sortMultiset s : Multiset Char) = s := by
  induction s using Quot.inductionOn with
  | h l => exact Quotient.sound (List.perm_insertionSort _ l)

theorem msSorted_mem (vs : Finset Char) (c : Char) :
    c ∈ msSorted vs ↔ c ∈ vs := by
  rw [← Multiset.mem_coe, msSorted, sortMultiset_coe]
  rfl

theorem msSorted_length (vs : Finset Char) : (msSorted vs).length = vs.card := by
  have h := congrArg Multiset.card (sortMultiset_coe vs.val)
  rw [Multiset.coe_card] at h
  exact h

theorem msSorted_toFinset (vs : Finset Char) : (msSorted vs).toFinset = vs := by
  apply Finset.ext
  intro a
  rw [List.mem_toFinset, msSorted_mem]

/-- C3 amended: for a MutationSet with an uppercase (or absent)
wildtype and at least one variant letter drawn from [idA-Z]: with at
most ten variant letters str is wildtype + position + sorted letters
and re-parsing recovers an equal set; with more than ten variant
letters str is the bang-complement form against the 20-letter
alphabet, and re-parsing recovers an equal set provided every variant
letter belongs to that alphabet (insertion and deletion calls are
silently dropped from the complement form) and the set is not the
whole alphabet (an empty complement does not re-parse). -/
theorem msStr_roundtrip (p : Nat) (wt : Option Char) (vs : Finset Char)
    (hwt : ∀ c, wt = some c → isUpperB c = true)
    (hvar : ∀ c ∈ vs, isVariantB c = true)
    (hne : vs ≠ ∅)
    (hok : vs.card ≤ 10 ∨
      ((∀ c ∈ vs, c ∈ AMINO_ALPHABET) ∧ vs ≠ AMINO_ALPHABET.toFinset)) :
    (vs.card ≤ 10 →
      msStrL ⟨p, wt, vs⟩ = wtList wt ++ natDecimal p ++ msSorted vs) ∧
    (10 < vs.card →
      msStrL ⟨p, wt, vs⟩ = wtList wt ++ natDecimal p ++
        '!' :: AMINO_ALPHABET.filter (fun c => !(decide (c ∈ vs)))) ∧
    ∃ s', parseMSL (msStrL ⟨p, wt, vs⟩) = some s' ∧
      msEq ⟨p, wt, vs⟩ s' = some true := by
  have hlen : (msSorted vs).length = vs.card := msSorted_length vs
  have htf : (msSorted vs).toFinset = vs := msSorted_toFinset vs
  have hmemL : ∀ c, c ∈ msSorted vs ↔ c ∈ vs := fun c => msSorted_mem vs c
  have hLvar : ∀ c ∈ msSorted vs, isVariantB c = true :=
    fun c hc => hvar c ((hmemL c).mp hc)
  have hLne : msSorted vs ≠ [] := by
    intro h0
    apply hne
    rw [← htf, h0]
    rfl
  have hcontains : ∀ c, ((msSorted vs).contains c) = decide (c ∈ vs) := by
    intro c
    rw [contains_eq_decide_mem]
    exact decide_eq_decide.mpr (hmemL c)
  have hshape1 : vs.card ≤ 10 →
      msStrL ⟨p, wt, vs⟩ = wtList wt ++ natDecimal p ++ msSorted vs := by
    intro h10
    unfold msStrL
    simp only
    rw [if_neg (by rw [hlen]; omega)]
  have hshape2 : 10 < vs.card →
      msStrL ⟨p, wt, vs⟩ = wtList wt ++ natDecimal p ++
        '!' :: AMINO_ALPHABET.filter (fun c => !(decide (c ∈ vs))) := by
    intro h10
    unfold msStrL
    simp only
    rw [if_pos (by rw [hlen]; omega)]
    congr 2
    apply List.filter_congr
    intro a _
    rw [hcontains a]
  refine ⟨hshape1, hshape2, ?_⟩
  by_cases h10 : vs.card ≤ 10
  · refine ⟨⟨p, wt, vs⟩, ?_, msEq_self _⟩
    rw [hshape1 h10]
    rw [parseMSL_split wt p (msSorted vs) hwt
      (fun c t hct => isVariantB_not_digit c
        (hLvar c (by rw [hct]; exact List.mem_cons_self c t)))]
    rw [splitBang_no_bang (msSorted vs)
      (fun c t hct hbang => by
        have := hLvar c (by rw [hct]; exact List.mem_cons_self c t)
        rw [hbang] at this
        exact absurd this (by decide))]
    unfold parseTail
    rw [if_neg (by simp [hLne])]
    rw [if_pos (List.all_eq_true.mpr hLvar)]
    simp only [Bool.false_eq_true, if_false, htf]
  · rcases hok with hok | ⟨hsub, hneq⟩
    · exact absurd hok h10
    have h10' : 10 < vs.card := by omega
    have hC : ∃ a, a ∈ AMINO_ALPHABET ∧ a ∉ vs := by
      by_contra hcon
      push_neg at hcon
      apply hneq
      apply Finset.Subset.antisymm
      · intro a ha
        rw [List.mem_toFinset]
        exact hsub a ha
      · intro a ha
        exact hcon a (List.mem_toFinset.mp ha)
    have hfilter_mem : ∀ a,
        a ∈ AMINO_ALPHABET.filter (fun c => !(decide (c ∈ vs))) ↔
          a ∈ AMINO_ALPHABET ∧ a ∉ vs := by
      intro a
      rw [List.mem_filter]
      simp
    have hCne : AMINO_ALPHABET.filter (fun c => !(decide (c ∈ vs))) ≠ [] := by
      rcases hC with ⟨a, ha1, ha2⟩
      intro h0
      have : a ∈ AMINO_ALPHABET.filter (fun c => !(decide (c ∈ vs))) :=
        (hfilter_mem a).mpr ⟨ha1, ha2⟩
      rw [h0] at this
      simp at this
    refine ⟨⟨p, wt, vs⟩, ?_, msEq_self _⟩
    rw [hshape2 h10']
    rw [parseMSL_split wt p _ hwt (fun c t hct => by
      cases hct
      decide)]
    have hsplit : splitBang
        ('!' :: AMINO_ALPHABET.filter (fun c => !(decide (c ∈ vs)))) =
        (true, AMINO_ALPHABET.filter (fun c => !(decide (c ∈ vs)))) := by
      simp [splitBang]
    rw [hsplit]
    unfold parseTail
    rw [if_neg (by simp [hCne])]
    rw [if_pos (List.all_eq_true.mpr (fun c hc =>
      amino_all_variant c (List.mem_filter.mp hc).1))]
    simp only [if_true]
    congr 1
    congr 1
    apply Finset.ext
    intro a
    rw [List.mem_toFinset, List.mem_filter]
    have hca := contains_eq_decide_mem
      (AMINO_ALPHABET.filter (fun c => !(decide (c ∈ vs)))) a
    constructor
    · rintro ⟨ha, hnc⟩
      rw [hca] at hnc
      simp only [Bool.not_eq_true', decide_eq_false_iff_not] at hnc
      by_contra hav
      exact hnc ((hfilter_mem a).mpr ⟨ha, hav⟩)
    · intro hav
      refine ⟨hsub a hav, ?_⟩
      rw [hca]
      simp only [Bool.not_eq_true', decide_eq_false_iff_not]
      intro hmem
      exact ((hfilter_mem a).mp hmem).2 hav

/-- C3 counterexample: two constructible MutationSets break the
claimed round trip.  The set with wildtype A at position 10 and no
variants (vcf.py lines 180-202 accept a wildtype with zero mutations)
prints as A10, which the text regex rejects (it requires at least one
variant letter); and the set of the eleven variants ACDEFGHIKLd at
position 1 prints in complement form as 1!MNPQRSTVWY, which re-parses
to the ten amino letters ACDEFGHIKL - the deletion call d is lost,
because the complement is taken against the 20-letter alphabet - so
re-parsing yields an unequal MutationSet. -/
theorem msStr_roundtrip_counterexample :
    parseMutationSetText (msStr ⟨10, some 'A', ∅⟩) = none ∧
    msStr (⟨10, some 'A', ∅⟩ : MutationSet) = "A10" ∧
    msStr (⟨1, none,
      (['A', 'C', 'D', 'E', 'F', 'G', 'H', 'I', 'K', 'L', 'd'] :
        List Char).toFinset⟩ : MutationSet) = "1!MNPQRSTVWY" ∧
    parseMutationSetText "1!MNPQRSTVWY" =
      some ⟨1, none,
        (['A', 'C', 'D', 'E', 'F', 'G', 'H', 'I', 'K', 'L'] :
          List Char).toFinset⟩ ∧
    msEq
      ⟨1, none,
        (['A', 'C', 'D', 'E', 'F', 'G', 'H', 'I', 'K', 'L', 'd'] :
          List Char).toFinset⟩
      ⟨1, none,
        (['A', 'C', 'D', 'E', 'F', 'G', 'H', 'I', 'K', 'L'] :
          List Char).toFinset⟩ = some false := by
  refine ⟨?_, ?_, ?_, ?_, ?_⟩ <;> decide

/-- Witness for C3 at the singleton set A10G. -/
theorem msStr_roundtrip_witness :
    ∃ s', parseMSL (msStrL ⟨10, some 'A', {'G'}⟩) = some s' ∧
      msEq ⟨10, some 'A', {'G'}⟩ s' = some true :=
  (msStr_roundtrip 10 (some 'A') {'G'}
    (by intro c h; cases h; decide)
    (by decide) (by decide) (Or.inl (by decide))).2.2

end Pyvdrm
